import Mathlib

/-!
# Verification of the bytecode protection pipeline (`src/plugins/bytecode.ts`)

Shallow embedding of the bytecode plugin of electron-vite: the chunk
selector, the entry stub construction, the loader's flag-hash patch and
placeholder reconstruction, the bytecode compiler client's promise
protocol, the reference rewriter and the dependency propagator, together
with theorems settling the specified properties.

Strings are embedded as Lean `String`/`List Char` (JS strings of the
relevant inputs are ASCII or BMP text, one code unit per character);
binary buffers as `List Nat` with entries below 256.
-/

/-! ## Data model -/

/-- Chunk type tag, mirroring `chunk.type ∈ {chunk, asset}`. -/
inductive ChunkType
  | chunk
  | asset
deriving DecidableEq, Repr

/-- An output chunk as consumed by the plugin hooks
(`{name, fileName, code, isEntry, type, imports, dynamicImports}`). -/
structure Chunk where
  name : String
  fileName : String
  code : String
  isEntry : Bool
  type : ChunkType
  imports : List String
  dynamicImports : List String
deriving DecidableEq, Repr

/-- Rollup module info as used by `this.getModuleInfo(moduleId)`:
`{isExternal, importers, dynamicImporters}`. -/
structure ModuleInfo where
  isExternal : Bool
  importers : List String
  dynamicImporters : List String
deriving DecidableEq, Repr

/-! ## Chunk selector (`isBytecodeChunk`, bytecode.ts lines 153-161)

`const { chunkAlias = [] } = options; const _chunkAlias = Array.isArray(chunkAlias) ? chunkAlias : [chunkAlias];
 const transformAllChunks = _chunkAlias.length === 0;
 const isBytecodeChunk = (chunkName) => transformAllChunks || _chunkAlias.some(alias => alias === chunkName)` -/

/-- `transformAllChunks`: true when the normalized alias list is empty. -/
def transformAllChunks (chunkAlias : List String) : Bool :=
  chunkAlias.length == 0

/-- `isBytecodeChunk`: a chunk is eligible when every chunk is selected or
its name equals one of the aliases (strict string equality). -/
def isBytecodeChunk (chunkAlias : List String) (chunkName : String) : Bool :=
  transformAllChunks chunkAlias || chunkAlias.any (fun a => a == chunkName)

/-! ## Production-mode guard (`bytecodePlugin`, bytecode.ts lines 148-151)

`if (process.env.NODE_ENV_ELECTRON_VITE !== 'production') { return null }`
comes before any option destructuring. The plugin value itself is a record
of hooks; for the guard claim only `Option`-ness matters, so the plugin
body is represented by its configuration data. -/

/-- The raw options record of `bytecodePlugin` (fields before defaulting). -/
structure BytecodeOptions where
  chunkAlias : Option (List String)
  transformArrowFunctions : Option Bool
  removeBundleJS : Option Bool
deriving DecidableEq, Repr

/-- The configuration a constructed plugin closes over, after the
`const { chunkAlias = [], transformArrowFunctions = true, removeBundleJS = true } = options`
defaulting. -/
structure PluginConfig where
  chunkAlias : List String
  transformArrowFunctions : Bool
  removeBundleJS : Bool
deriving DecidableEq, Repr

/-- `bytecodePlugin(options)`: returns `null` unless the environment
variable `NODE_ENV_ELECTRON_VITE` is exactly `"production"`; otherwise
builds the plugin from the defaulted options. `env` is the value of
`process.env.NODE_ENV_ELECTRON_VITE` (`none` models an unset variable). -/
def bytecodePlugin (env : Option String) (options : BytecodeOptions) : Option PluginConfig :=
  if env ≠ some "production" then
    none
  else
    some { chunkAlias := options.chunkAlias.getD []
           transformArrowFunctions := options.transformArrowFunctions.getD true
           removeBundleJS := options.removeBundleJS.getD true }

/-! ## Entry stub (bytecode.ts lines 170 and 244-249)

`const requireBytecodeLoaderStr = '"use strict";\nrequire("./bytecode-loader.js");'`
and, for a compiled entry chunk,
`const code = requireBytecodeLoaderStr + `\nrequire("./${normalizePath(name + 'c')}");\n``. -/

/-- The loader-require prologue string literal from the source. -/
def requireBytecodeLoaderStr : String :=
  "\"use strict\";\nrequire(\"./bytecode-loader.js\");"

/-- Vite's `normalizePath` at this call site: converts Windows backslashes
to forward slashes (and is the identity on the POSIX-style output file
names rollup produces). -/
def normalizePath (p : String) : String :=
  ⟨p.data.map (fun c => if c = '\\' then '/' else c)⟩

/-- The stub written over a compiled entry chunk's `.js` file. -/
def entryStub (name : String) : String :=
  requireBytecodeLoaderStr ++ "\nrequire(\"./" ++ normalizePath (name ++ "c") ++ "\");\n"

/-! ## Loader flag-hash patch (`setFlagHashHeader`, bytecode.ts lines 76-84)

`dummyBytecode.slice(FLAG_HASH_OFFSET, FLAG_HASH_OFFSET + 4).copy(bytecodeBuffer, FLAG_HASH_OFFSET)`
with `FLAG_HASH_OFFSET = 12`; `dummyBytecode` is the cached data of a
one-time compilation of the empty script, modelled as a parameter. -/

/-- `FLAG_HASH_OFFSET = 12`. -/
def FLAG_HASH_OFFSET : Nat := 12

/-- `SOURCE_HASH_OFFSET = 8`. -/
def SOURCE_HASH_OFFSET : Nat := 8

/-- `buffer.slice(s, e)`: the bytes from index `s` (inclusive) to `e`
(exclusive), clamped to the buffer. -/
def bufSlice (b : List Nat) (s e : Nat) : List Nat :=
  (b.take e).drop s

/-- `src.copy(tgt, tgtStart)` of Node buffers: overwrites `tgt` starting at
`tgtStart` with bytes of `src`, stopping at the end of either buffer. -/
def bufferCopy (src tgt : List Nat) (tgtStart : Nat) : List Nat :=
  tgt.take tgtStart ++ src.take (tgt.length - tgtStart) ++ tgt.drop (tgtStart + src.length)

/-- `setFlagHashHeader(bytecodeBuffer)` with the memoized `dummyBytecode`
passed explicitly. -/
def setFlagHashHeader (dummyBytecode bytecodeBuffer : List Nat) : List Nat :=
  bufferCopy (bufSlice dummyBytecode FLAG_HASH_OFFSET (FLAG_HASH_OFFSET + 4))
    bytecodeBuffer FLAG_HASH_OFFSET

/-! ## Loader placeholder reconstruction (bytecode.ts lines 85-106)

`getSourceHashHeader` slices bytes 8..12, `buffer2Number` assembles them
with `|` and `<<` (JS 32-bit signed bitwise arithmetic), and the dummy
source is the U+200B filler repeated `length - 2` times between two quote
characters when `length > 1`, else the empty string. -/

/-- `getSourceHashHeader(bytecodeBuffer)`: bytes 8..12. -/
def getSourceHashHeader (b : List Nat) : List Nat :=
  bufSlice b SOURCE_HASH_OFFSET (SOURCE_HASH_OFFSET + 4)

/-- JS `ToInt32`: reduce modulo 2^32 and interpret as a signed 32-bit
integer. -/
def toInt32 (n : Nat) : Int :=
  if n % 2 ^ 32 < 2 ^ 31 then ((n % 2 ^ 32 : Nat) : Int)
  else ((n % 2 ^ 32 : Nat) : Int) - 2 ^ 32

/-- `buffer2Number(buffer)`: `ret |= buffer[3] << 24; ret |= buffer[2] << 16;
ret |= buffer[1] << 8; ret |= buffer[0]`. An out-of-range JS index reads
`undefined`, which `ToInt32` coerces to 0, hence `getD _ 0`. -/
def buffer2Number (b : List Nat) : Int :=
  toInt32 ((b.getD 3 0 <<< 24) ||| (b.getD 2 0 <<< 16) ||| (b.getD 1 0 <<< 8) ||| b.getD 0 0)

/-- The zero-width-space filler character U+200B. -/
def fillerChar : Char := '\u200b'

/-- The dummy source: a quote, `length - 2` filler characters, and a
closing quote when `length > 1`, else the empty string. -/
def dummyCodeFor (length : Int) : List Char :=
  if length > 1 then '"' :: (List.replicate (length - 2).toNat fillerChar ++ ['"'])
  else []

/-- The placeholder the loader constructs for a bytecode buffer: decode the
source-hash header, then build the dummy source. -/
def placeholderOf (b : List Nat) : List Char :=
  dummyCodeFor (buffer2Number (getSourceHashHeader b))

/-- The unsigned little-endian value of the 4 bytes at offset 8 (the number
the specification says is recovered). -/
def sourceLengthLE (b : List Nat) : Nat :=
  b.getD 8 0 + b.getD 9 0 * 2 ^ 8 + b.getD 10 0 * 2 ^ 16 + b.getD 11 0 * 2 ^ 24

/-! ## Theorems: C4, C9, C5, C6, C7 -/

/-- C4: for every configured alias set and chunk name, `isBytecodeChunk`
returns true iff the alias set is empty or the chunk name exactly matches
one of the aliases. -/
theorem isBytecodeChunk_iff (chunkAlias : List String) (chunkName : String) :
    isBytecodeChunk chunkAlias chunkName = true ↔
      chunkAlias = [] ∨ chunkName ∈ chunkAlias := by
  simp only [isBytecodeChunk, transformAllChunks, Bool.or_eq_true, beq_iff_eq,
    List.any_eq_true, List.length_eq_zero]
  constructor
  · rintro (h | ⟨a, ha, rfl⟩)
    · exact Or.inl h
    · exact Or.inr ha
  · rintro (rfl | h)
    · exact Or.inl rfl
    · exact Or.inr ⟨chunkName, h, rfl⟩

/-- C9: whenever `NODE_ENV_ELECTRON_VITE` is not exactly `"production"`,
`bytecodePlugin` returns `null` for every options value; the guard precedes
all option processing. -/
theorem bytecodePlugin_nonproduction_none (env : Option String)
    (options : BytecodeOptions) (h : env ≠ some "production") :
    bytecodePlugin env options = none := by
  simp [bytecodePlugin, h]

/-- Witness for C9 at a concrete input. -/
theorem bytecodePlugin_nonproduction_none_witness :
    bytecodePlugin (some "development")
      { chunkAlias := some ["index"], transformArrowFunctions := none,
        removeBundleJS := some false } = none :=
  bytecodePlugin_nonproduction_none (some "development")
    { chunkAlias := some ["index"], transformArrowFunctions := none,
      removeBundleJS := some false } (by decide)

/-- Characters untouched by the backslash replacement are mapped to
themselves, so the map is the identity on backslash-free text. -/
theorem map_slash_id (l : List Char) (h : ∀ c ∈ l, c ≠ '\\') :
    l.map (fun c => if c = '\\' then '/' else c) = l := by
  induction l with
  | nil => rfl
  | cons c cs ih =>
    have hc : c ≠ '\\' := h c (List.mem_cons_self c cs)
    have hcs := ih (fun x hx => h x (List.mem_cons_of_mem c hx))
    simp only [List.map_cons, hcs, if_neg hc]

/-- C5: for a chunk name free of backslashes (as rollup output file names
are), the stub written over a compiled entry chunk is byte-identical to the
literal template
`"use strict";\nrequire("./bytecode-loader.js");\nrequire("./<name>c");\n`. -/
theorem entryStub_eq_template (name : String)
    (h : ∀ c ∈ name.data, c ≠ '\\') :
    entryStub name =
      "\"use strict\";\nrequire(\"./bytecode-loader.js\");\nrequire(\"./" ++
        name ++ "c\");\n" := by
  have hmap : normalizePath (name ++ "c") = name ++ "c" := by
    apply String.ext
    show (name ++ "c").data.map _ = (name ++ "c").data
    apply map_slash_id
    intro c hc
    rw [String.data_append] at hc
    rcases List.mem_append.mp hc with hc | hc
    · exact h c hc
    · have hc2 : ∀ x ∈ ("c" : String).data, x ≠ '\\' := by decide
      exact hc2 c hc
  rw [entryStub, hmap]
  have hassoc : requireBytecodeLoaderStr ++ "\nrequire(\"./" ++ (name ++ "c") ++ "\");\n"
      = ((requireBytecodeLoaderStr ++ "\nrequire(\"./") ++ name) ++ ("c" ++ "\");\n") := by
    simp [String.append_assoc]
  have hpre : requireBytecodeLoaderStr ++ "\nrequire(\"./"
      = "\"use strict\";\nrequire(\"./bytecode-loader.js\");\nrequire(\"./" := by decide
  have hpost : ("c" : String) ++ "\");\n" = "c\");\n" := by decide
  rw [hassoc, hpre, hpost]

/-- Witness for C5 at the concrete chunk name `index.js`. -/
theorem entryStub_eq_template_witness :
    entryStub "index.js" =
      "\"use strict\";\nrequire(\"./bytecode-loader.js\");\nrequire(\"./index.jsc\");\n" :=
  entryStub_eq_template "index.js" (by decide)

/-! ## Buffer indexing lemmas for the flag-hash patch -/

/-- Index-wise description of `bufferCopy`: inside the copied window the
byte comes from the source (shifted by `tgtStart`), outside it the target
byte is kept. -/
theorem bufferCopy_getElem? (src tgt : List Nat) (start i : Nat)
    (h : start + src.length ≤ tgt.length) (hi : i < tgt.length) :
    (bufferCopy src tgt start)[i]? =
      if start ≤ i ∧ i < start + src.length then src[i - start]? else tgt[i]? := by
  unfold bufferCopy
  have hstart : (tgt.take start).length = start := by
    simp
    omega
  have hsrc : src.take (tgt.length - start) = src := List.take_of_length_le (by omega)
  rw [hsrc, List.append_assoc, List.getElem?_append, hstart]
  by_cases h1 : i < start
  · rw [if_pos h1, if_neg (by omega)]
    exact List.getElem?_take_of_lt h1
  · rw [if_neg h1, List.getElem?_append]
    by_cases h2 : i < start + src.length
    · rw [if_pos (by omega), if_pos ⟨by omega, h2⟩]
    · rw [if_neg (by omega), if_neg (by omega), List.getElem?_drop]
      congr 1
      omega

/-- The length of `bufferCopy` never exceeds nor shrinks the target when
the copy fits. -/
theorem bufferCopy_length (src tgt : List Nat) (start : Nat)
    (h : start + src.length ≤ tgt.length) :
    (bufferCopy src tgt start).length = tgt.length := by
  simp [bufferCopy]
  omega

/-- C6: for buffers of length at least 16, after `setFlagHashHeader` the 4
bytes at offsets 12..15 equal the corresponding bytes of the reference
(`dummyBytecode`) compilation, and every byte outside offsets 12..15 is
unchanged; the length is preserved. -/
theorem setFlagHashHeader_spec (dummyBytecode bytecodeBuffer : List Nat)
    (hd : 16 ≤ dummyBytecode.length) (hb : 16 ≤ bytecodeBuffer.length) :
    (setFlagHashHeader dummyBytecode bytecodeBuffer).length = bytecodeBuffer.length ∧
    ∀ i, i < bytecodeBuffer.length →
      (setFlagHashHeader dummyBytecode bytecodeBuffer)[i]? =
        if 12 ≤ i ∧ i < 16 then dummyBytecode[i]? else bytecodeBuffer[i]? := by
  have hslen : (bufSlice dummyBytecode FLAG_HASH_OFFSET (FLAG_HASH_OFFSET + 4)).length = 4 := by
    simp [bufSlice, FLAG_HASH_OFFSET]
    omega
  have hfit : FLAG_HASH_OFFSET +
      (bufSlice dummyBytecode FLAG_HASH_OFFSET (FLAG_HASH_OFFSET + 4)).length ≤
      bytecodeBuffer.length := by
    rw [hslen]
    simp [FLAG_HASH_OFFSET]
    omega
  constructor
  · exact bufferCopy_length _ _ _ hfit
  · intro i hi
    rw [setFlagHashHeader, bufferCopy_getElem? _ _ _ _ hfit hi, hslen]
    simp only [FLAG_HASH_OFFSET]
    by_cases hcase : 12 ≤ i ∧ i < 16
    · rw [if_pos (by omega), if_pos hcase]
      simp only [bufSlice, FLAG_HASH_OFFSET, List.getElem?_drop]
      rw [List.getElem?_take_of_lt (by omega)]
      congr 1
      omega
    · rw [if_neg (by omega), if_neg hcase]

/-- Witness for C6 at concrete 16-byte buffers. -/
theorem setFlagHashHeader_spec_witness :
    (setFlagHashHeader (List.replicate 16 7) (List.replicate 16 9)).length =
      (List.replicate 16 9 : List Nat).length ∧
    ∀ i, i < (List.replicate 16 9 : List Nat).length →
      (setFlagHashHeader (List.replicate 16 7) (List.replicate 16 9))[i]? =
        if 12 ≤ i ∧ i < 16 then (List.replicate 16 7 : List Nat)[i]?
        else (List.replicate 16 9 : List Nat)[i]? :=
  setFlagHashHeader_spec (List.replicate 16 7) (List.replicate 16 9)
    (by decide) (by decide)

/-! ## Decoding the source-hash header -/

/-- Bitwise or of a left-shifted value with a value below the shift window
is addition: the bit ranges are disjoint. -/
theorem mul_pow_lor_eq_add (a : Nat) : ∀ (k b : Nat), b < 2 ^ k →
    a * 2 ^ k ||| b = a * 2 ^ k + b := by
  intro k
  induction k generalizing a with
  | zero =>
    intro b hb
    have hb0 : b = 0 := by omega
    subst hb0
    simp
  | succ k ih =>
    intro b hb
    have hb2 : b >>> 1 < 2 ^ k := by
      rw [Nat.shiftRight_one]
      rw [Nat.pow_succ] at hb
      omega
    have hbit : 2 * (b >>> 1) + (b.testBit 0).toNat = b := by
      have := Nat.bit_testBit_zero_shiftRight_one b
      rw [Nat.bit_val] at this
      omega
    calc a * 2 ^ (k + 1) ||| b
        = Nat.bit false (a * 2 ^ k) ||| Nat.bit (b.testBit 0) (b >>> 1) := by
          rw [Nat.bit_testBit_zero_shiftRight_one]
          congr 1
          rw [Nat.bit_val]
          simp [Nat.pow_succ]
          ring
      _ = Nat.bit (false || b.testBit 0) (a * 2 ^ k ||| b >>> 1) := Nat.lor_bit ..
      _ = Nat.bit (b.testBit 0) (a * 2 ^ k + b >>> 1) := by
          rw [ih a _ hb2, Bool.false_or]
      _ = a * 2 ^ (k + 1) + b := by
          rw [Nat.bit_val]
          calc 2 * (a * 2 ^ k + b >>> 1) + (b.testBit 0).toNat
              = a * 2 ^ (k + 1) + (2 * (b >>> 1) + (b.testBit 0).toNat) := by ring
            _ = a * 2 ^ (k + 1) + b := by rw [hbit]

/-- The shift-and-or decode of four bytes is the little-endian value. -/
theorem lor_bytes_eq_le (b0 b1 b2 b3 : Nat)
    (h0 : b0 < 256) (h1 : b1 < 256) (h2 : b2 < 256) (h3 : b3 < 256) :
    (b3 <<< 24) ||| (b2 <<< 16) ||| (b1 <<< 8) ||| b0 =
      b0 + b1 * 2 ^ 8 + b2 * 2 ^ 16 + b3 * 2 ^ 24 := by
  have e8 : (2 : Nat) ^ 8 = 256 := by norm_num
  have e16 : (2 : Nat) ^ 16 = 65536 := by norm_num
  have e24 : (2 : Nat) ^ 24 = 16777216 := by norm_num
  rw [Nat.shiftLeft_eq, Nat.shiftLeft_eq, Nat.shiftLeft_eq]
  rw [Nat.lor_assoc, Nat.lor_assoc]
  rw [mul_pow_lor_eq_add b1 8 b0 (by omega)]
  rw [mul_pow_lor_eq_add b2 16 (b1 * 2 ^ 8 + b0) (by rw [e16, e8]; omega)]
  rw [mul_pow_lor_eq_add b3 24 (b2 * 2 ^ 16 + (b1 * 2 ^ 8 + b0)) (by rw [e24, e16, e8]; omega)]
  ring

/-- C7 (amended): for a buffer of bytes below 256 with at least 12 bytes
whose little-endian word at offset 8 is below 2^31, the loader decodes
exactly that length L, and the placeholder has exactly L characters when
L > 1 and is empty when L ≤ 1. (For L ≥ 2^31 the signed 32-bit decode goes
negative and the placeholder is empty; see the counterexample.) -/
theorem placeholder_length_spec (b : List Nat)
    (hbytes : ∀ x ∈ b, x < 256) (hlen : 12 ≤ b.length)
    (hsmall : sourceLengthLE b < 2 ^ 31) :
    buffer2Number (getSourceHashHeader b) = (sourceLengthLE b : Int) ∧
    (1 < sourceLengthLE b → (placeholderOf b).length = sourceLengthLE b) ∧
    (sourceLengthLE b ≤ 1 → placeholderOf b = []) := by
  have hj : ∀ j, j < 4 → (getSourceHashHeader b).getD j 0 = b.getD (8 + j) 0 := by
    intro j hjlt
    simp only [getSourceHashHeader, bufSlice, SOURCE_HASH_OFFSET,
      List.getD_eq_getElem?_getD, List.getElem?_drop]
    rw [List.getElem?_take_of_lt (by omega)]
  have hbyte : ∀ j, j < 4 → b.getD (8 + j) 0 < 256 := by
    intro j hjlt
    have hin : 8 + j < b.length := by omega
    rw [List.getD_eq_getElem?_getD, List.getElem?_eq_getElem hin]
    exact hbytes _ (List.getElem_mem ..)
  have hdecode : buffer2Number (getSourceHashHeader b) = (sourceLengthLE b : Int) := by
    rw [buffer2Number]
    rw [hj 0 (by omega), hj 1 (by omega), hj 2 (by omega), hj 3 (by omega)]
    rw [lor_bytes_eq_le _ _ _ _ (hbyte 0 (by omega)) (hbyte 1 (by omega))
      (hbyte 2 (by omega)) (hbyte 3 (by omega))]
    have hle : b.getD (8 + 0) 0 + b.getD (8 + 1) 0 * 2 ^ 8 + b.getD (8 + 2) 0 * 2 ^ 16 +
        b.getD (8 + 3) 0 * 2 ^ 24 = sourceLengthLE b := by
      rw [sourceLengthLE]
    rw [hle, toInt32, Nat.mod_eq_of_lt (by omega), if_pos (by omega)]
  refine ⟨hdecode, ?_, ?_⟩
  · intro hgt
    have hgtI : (1 : Int) < (sourceLengthLE b : Int) := by exact_mod_cast hgt
    rw [placeholderOf, hdecode, dummyCodeFor, if_pos hgtI]
    have htn : ((sourceLengthLE b : Int) - 2).toNat = sourceLengthLE b - 2 := by omega
    simp only [List.length_cons, List.length_append, List.length_replicate,
      List.length_nil, htn]
    omega
  · intro hle1
    have hle1I : ¬ (1 : Int) < (sourceLengthLE b : Int) := by
      exact_mod_cast Nat.not_lt.mpr hle1
    rw [placeholderOf, hdecode, dummyCodeFor, if_neg hle1I]

/-- Witness for C7 at a concrete buffer: 12 bytes whose word at offset 8
decodes to 5, giving a 5-character placeholder. -/
theorem placeholder_length_spec_witness :
    buffer2Number (getSourceHashHeader [1, 2, 3, 4, 5, 6, 7, 8, 5, 0, 0, 0]) =
      (sourceLengthLE [1, 2, 3, 4, 5, 6, 7, 8, 5, 0, 0, 0] : Int) ∧
    (1 < sourceLengthLE [1, 2, 3, 4, 5, 6, 7, 8, 5, 0, 0, 0] →
      (placeholderOf [1, 2, 3, 4, 5, 6, 7, 8, 5, 0, 0, 0]).length =
        sourceLengthLE [1, 2, 3, 4, 5, 6, 7, 8, 5, 0, 0, 0]) ∧
    (sourceLengthLE [1, 2, 3, 4, 5, 6, 7, 8, 5, 0, 0, 0] ≤ 1 →
      placeholderOf [1, 2, 3, 4, 5, 6, 7, 8, 5, 0, 0, 0] = []) :=
  placeholder_length_spec [1, 2, 3, 4, 5, 6, 7, 8, 5, 0, 0, 0]
    (by decide) (by decide) (by decide)

/-- C7 counterexample: a 12-byte buffer whose little-endian word at offset
8 is 2^31 = 2147483648, which is greater than 1, yet the constructed
placeholder is empty rather than 2147483648 characters long: the JS 32-bit
signed arithmetic of `buffer2Number` makes the decoded value negative. -/
theorem placeholder_length_counterexample :
    sourceLengthLE [0, 0, 0, 0, 0, 0, 0, 0, 0, 0, 0, 128] = 2147483648 ∧
    1 < sourceLengthLE [0, 0, 0, 0, 0, 0, 0, 0, 0, 0, 0, 128] ∧
    (placeholderOf [0, 0, 0, 0, 0, 0, 0, 0, 0, 0, 0, 128]).length ≠
      sourceLengthLE [0, 0, 0, 0, 0, 0, 0, 0, 0, 0, 0, 128] := by
  refine ⟨by decide, by decide, ?_⟩
  have hplaceholder : placeholderOf [0, 0, 0, 0, 0, 0, 0, 0, 0, 0, 0, 128] = [] := by decide
  rw [hplaceholder]
  decide

/-! ## Bytecode compiler client (`compileToBytecode`, bytecode.ts lines 16-62)

The promise body attaches handlers: stdout `data` appends to the `data`
accumulator, stdout `end` resolves with the accumulator, stderr `data` and
`error` only log, the process `error` event rejects, and `exit` (any code)
resolves with the accumulator. A promise settles at its first
resolve/reject; later settles are no-ops. The subprocess interaction is
embedded as a sequence of events folded over the promise state. -/

/-- Events the spawned compiler process can emit, in order of occurrence. -/
inductive ProcEvent
  | stdoutData (chunk : List Nat)
  | stdoutEnd
  | stderrData (chunk : List Nat)
  | spawnError (msg : String)
  | exited (code : Option Int)
deriving DecidableEq, Repr

/-- The settled value of the promise: a binary buffer or a rejection. -/
inductive CompileOutcome
  | ok (buffer : List Nat)
  | err (msg : String)
deriving DecidableEq, Repr

/-- The promise body's state: the `data` accumulator plus the settle
status (`none` while pending; a settled promise keeps its first value). -/
structure CompileState where
  data : List Nat
  outcome : Option CompileOutcome
deriving DecidableEq, Repr

/-- One event handled by the listeners registered in `compileToBytecode`. -/
def stepEvent (s : CompileState) (e : ProcEvent) : CompileState :=
  match e with
  | .stdoutData chunk => { s with data := s.data ++ chunk }
  | .stdoutEnd =>
    match s.outcome with
    | none => { s with outcome := some (.ok s.data) }
    | some _ => s
  | .stderrData _ => s
  | .spawnError msg =>
    match s.outcome with
    | none => { s with outcome := some (.err msg) }
    | some _ => s
  | .exited _ =>
    match s.outcome with
    | none => { s with outcome := some (.ok s.data) }
    | some _ => s

/-- `compileToBytecode` as a function of the event sequence of the
spawned process. -/
def compileToBytecode (events : List ProcEvent) : CompileState :=
  events.foldl stepEvent { data := [], outcome := none }

/-- Whether an event is the process `error` (spawn failure) event. -/
def isSpawnError : ProcEvent → Bool
  | .spawnError _ => true
  | _ => false

/-- Whether an event settles the promise. -/
def isSettling : ProcEvent → Bool
  | .stdoutData _ => false
  | .stderrData _ => false
  | _ => true

/-- The stdout payload of an event, when any. -/
def stdoutChunk : ProcEvent → Option (List Nat)
  | .stdoutData c => some c
  | _ => none

/-- All stdout bytes delivered before the promise settles. -/
def accumulatedStdout (events : List ProcEvent) : List Nat :=
  ((events.takeWhile (fun e => !isSettling e)).filterMap stdoutChunk).flatten

/-- A settled promise keeps its value across any further event. -/
theorem stepEvent_settled (s : CompileState) (e : ProcEvent) (o : CompileOutcome)
    (h : s.outcome = some o) : (stepEvent s e).outcome = some o := by
  cases e <;> simp [stepEvent, h]

/-- A settled promise keeps its value across any event sequence. -/
theorem foldl_settled (events : List ProcEvent) :
    ∀ (s : CompileState) (o : CompileOutcome), s.outcome = some o →
    (events.foldl stepEvent s).outcome = some o := by
  induction events with
  | nil => intro s o h; simpa
  | cons e rest ih => intro s o h; exact ih _ o (stepEvent_settled s e o h)

/-- Resolution lemma: without spawn errors, once the stream ends or the
process exits, the promise resolves with everything accumulated so far plus
the stdout bytes before the settling event. -/
theorem run_resolves_aux (events : List ProcEvent) :
    ∀ d : List Nat, (∀ e ∈ events, isSpawnError e = false) →
    ((∃ code, ProcEvent.exited code ∈ events) ∨ ProcEvent.stdoutEnd ∈ events) →
    (events.foldl stepEvent { data := d, outcome := none }).outcome =
      some (.ok (d ++ accumulatedStdout events)) := by
  induction events with
  | nil =>
    intro d _ h2
    rcases h2 with ⟨code, hc⟩ | h2
    · exact absurd hc (List.not_mem_nil _)
    · exact absurd h2 (List.not_mem_nil _)
  | cons e rest ih =>
    intro d h1 h2
    have h1' : ∀ x ∈ rest, isSpawnError x = false :=
      fun x hx => h1 x (List.mem_cons_of_mem _ hx)
    cases e with
    | stdoutData c =>
      have h2' : (∃ code, ProcEvent.exited code ∈ rest) ∨ ProcEvent.stdoutEnd ∈ rest := by
        rcases h2 with ⟨code, hc⟩ | h2
        · rcases List.mem_cons.mp hc with h | h
          · exact ProcEvent.noConfusion h
          · exact Or.inl ⟨code, h⟩
        · rcases List.mem_cons.mp h2 with h | h
          · exact ProcEvent.noConfusion h
          · exact Or.inr h
      rw [List.foldl_cons]
      have hstep : stepEvent { data := d, outcome := none } (.stdoutData c) =
          { data := d ++ c, outcome := none } := rfl
      rw [hstep, ih (d ++ c) h1' h2']
      have hacc : accumulatedStdout (ProcEvent.stdoutData c :: rest) =
          c ++ accumulatedStdout rest := by
        simp [accumulatedStdout, isSettling, stdoutChunk]
      rw [hacc, List.append_assoc]
    | stdoutEnd =>
      rw [List.foldl_cons]
      have hstep : stepEvent { data := d, outcome := none } .stdoutEnd =
          { data := d, outcome := some (.ok d) } := rfl
      rw [hstep, foldl_settled rest _ _ rfl]
      have hacc : accumulatedStdout (ProcEvent.stdoutEnd :: rest) = [] := by
        simp [accumulatedStdout, isSettling]
      rw [hacc, List.append_nil]
    | stderrData c =>
      have h2' : (∃ code, ProcEvent.exited code ∈ rest) ∨ ProcEvent.stdoutEnd ∈ rest := by
        rcases h2 with ⟨code, hc⟩ | h2
        · rcases List.mem_cons.mp hc with h | h
          · exact ProcEvent.noConfusion h
          · exact Or.inl ⟨code, h⟩
        · rcases List.mem_cons.mp h2 with h | h
          · exact ProcEvent.noConfusion h
          · exact Or.inr h
      rw [List.foldl_cons]
      have hstep : stepEvent { data := d, outcome := none } (.stderrData c) =
          { data := d, outcome := none } := rfl
      rw [hstep, ih d h1' h2']
      have hacc : accumulatedStdout (ProcEvent.stderrData c :: rest) =
          accumulatedStdout rest := by
        simp [accumulatedStdout, isSettling, stdoutChunk]
      rw [hacc]
    | spawnError msg =>
      have := h1 (.spawnError msg) (List.mem_cons_self _ _)
      simp [isSpawnError] at this
    | exited code =>
      rw [List.foldl_cons]
      have hstep : stepEvent { data := d, outcome := none } (.exited code) =
          { data := d, outcome := some (.ok d) } := rfl
      rw [hstep, foldl_settled rest _ _ rfl]
      have hacc : accumulatedStdout (ProcEvent.exited code :: rest) = [] := by
        simp [accumulatedStdout, isSettling]
      rw [hacc, List.append_nil]

/-- One step can only introduce a rejection through a spawn error. -/
theorem stepEvent_err (s : CompileState) (e : ProcEvent) (msg : String)
    (h : (stepEvent s e).outcome = some (.err msg)) :
    s.outcome = some (.err msg) ∨ e = .spawnError msg := by
  cases e with
  | stdoutData c => exact Or.inl h
  | stderrData c => exact Or.inl h
  | stdoutEnd =>
    cases ho : s.outcome with
    | none =>
      simp only [stepEvent, ho] at h
      simp at h
    | some o =>
      simp only [stepEvent, ho] at h
      exact Or.inl h
  | spawnError m =>
    cases ho : s.outcome with
    | none =>
      simp only [stepEvent, ho, Option.some.injEq, CompileOutcome.err.injEq] at h
      exact Or.inr (by rw [h])
    | some o =>
      simp only [stepEvent, ho] at h
      exact Or.inl h
  | exited code =>
    cases ho : s.outcome with
    | none =>
      simp only [stepEvent, ho] at h
      simp at h
    | some o =>
      simp only [stepEvent, ho] at h
      exact Or.inl h

/-- A rejection at the end of the run traces back to a spawn-error event. -/
theorem runEvents_err (events : List ProcEvent) (msg : String) :
    ∀ s : CompileState, (events.foldl stepEvent s).outcome = some (.err msg) →
      s.outcome = some (.err msg) ∨ ProcEvent.spawnError msg ∈ events := by
  induction events with
  | nil => intro s h; exact Or.inl (by simpa using h)
  | cons e rest ih =>
    intro s h
    rw [List.foldl_cons] at h
    rcases ih _ h with hstep | hmem
    · rcases stepEvent_err s e msg hstep with hs | he
      · exact Or.inl hs
      · exact Or.inr (he ▸ List.mem_cons_self _ _)
    · exact Or.inr (List.mem_cons_of_mem _ hmem)

/-- C3: for every event sequence of the compiler subprocess, the promise
resolves with the accumulated stdout buffer whenever the process exits
(with any exit status) and no spawn error occurred, it rejects only when a
spawn error occurred, and a stderr event never changes the state at all. -/
theorem compileToBytecode_spec (events : List ProcEvent) :
    ((∀ e ∈ events, isSpawnError e = false) →
      (∃ code, ProcEvent.exited code ∈ events) →
      (compileToBytecode events).outcome = some (.ok (accumulatedStdout events))) ∧
    (∀ msg, (compileToBytecode events).outcome = some (.err msg) →
      ProcEvent.spawnError msg ∈ events) ∧
    (∀ s chunk, stepEvent s (.stderrData chunk) = s) := by
  refine ⟨?_, ?_, fun s chunk => rfl⟩
  · intro h1 h2
    have h := run_resolves_aux events [] h1 (Or.inl h2)
    simpa [compileToBytecode] using h
  · intro msg h
    rcases runEvents_err events msg _ h with hs | hm
    · simp at hs
    · exact hm

/-- Witness for C3: a run with stdout chunks, stderr noise and a nonzero
exit resolves with the concatenated stdout bytes. -/
theorem compileToBytecode_spec_witness :
    (compileToBytecode [ProcEvent.stdoutData [1, 2], ProcEvent.stderrData [9],
        ProcEvent.stdoutData [3], ProcEvent.exited (some 1)]).outcome =
      some (.ok (accumulatedStdout [ProcEvent.stdoutData [1, 2], ProcEvent.stderrData [9],
        ProcEvent.stdoutData [3], ProcEvent.exited (some 1)])) :=
  (compileToBytecode_spec [ProcEvent.stdoutData [1, 2], ProcEvent.stderrData [9],
      ProcEvent.stdoutData [3], ProcEvent.exited (some 1)]).1
    (by decide) ⟨some 1, by decide⟩

/-! ## Reference rewriter (`writeBundle`, bytecode.ts lines 218-237)

`const bytecodeRE = new RegExp(bytecodeChunks.map(chunk => `(${chunk})`).join('|'), 'g')`
followed by the `while ((match = bytecodeRE.exec(_code)))` loop that
records `s.overwrite(match.index, match.index + chunkName.length,
chunkName + 'c')` on a MagicString and serializes it once at the end.
The alternation of literal chunk names is embedded directly: at each
position the first listed name that occurs there matches (leftmost match,
first alternative), and scanning resumes after the matched span, exactly
as `exec` with the `g` flag does on the unmodified input string. -/

/-- The first chunk name that matches at the head of `s` (regex
alternation tries alternatives left to right; an empty name cannot arise
from a chunk file name and never matches here). -/
def matchHere (chunkNames : List String) (s : List Char) : Option (List Char) :=
  (chunkNames.find? (fun n => !n.data.isEmpty && n.data.isPrefixOf s)).map String.data

/-- A successful `matchHere` returns a nonempty match. -/
theorem matchHere_ne_nil (chunkNames : List String) (s m : List Char)
    (h : matchHere chunkNames s = some m) : m ≠ [] := by
  unfold matchHere at h
  rcases Option.map_eq_some'.mp h with ⟨n, hfind, hdata⟩
  have hp := List.find?_some hfind
  rw [Bool.and_eq_true] at hp
  intro hnil
  rw [← hdata] at hnil
  simp [hnil] at hp

/-- A successful `matchHere` matches a prefix of the scanned suffix. -/
theorem matchHere_prefix (chunkNames : List String) (s m : List Char)
    (h : matchHere chunkNames s = some m) : m <+: s := by
  unfold matchHere at h
  rcases Option.map_eq_some'.mp h with ⟨n, hfind, hdata⟩
  have hp := List.find?_some hfind
  rw [Bool.and_eq_true] at hp
  rw [← hdata]
  exact List.isPrefixOf_iff_prefix.mp hp.2

/-- The `while (match = bytecodeRE.exec(_code))` loop: starting at
absolute position `i` in the original text, collect every
(offset, matched text) pair, resuming after each match. The `fuel`
argument only bounds the number of loop iterations; each iteration
consumes at least one character, so `fuel = length of the text` is always
enough (`execAll` below supplies it). -/
def execAllAux (chunkNames : List String) : Nat → List Char → Nat → List (Nat × List Char)
  | 0, _, _ => []
  | _ + 1, [], _ => []
  | fuel + 1, c :: rest, i =>
    match matchHere chunkNames (c :: rest) with
    | some m => (i, m) :: execAllAux chunkNames fuel ((c :: rest).drop m.length) (i + m.length)
    | none => execAllAux chunkNames fuel rest (i + 1)

/-- All matches of the combined pattern over the whole text. -/
def execAll (chunkNames : List String) (s : List Char) : List (Nat × List Char) :=
  execAllAux chunkNames s.length s 0

/-- MagicString serialization of the recorded overwrites: edits address
spans of the original text (in increasing positions); each span is
rendered as the matched text with `'c'` appended, and the gaps are copied
from the original. `pos` is the cursor in the original text. -/
def applyOverwrites (s : List Char) : List (Nat × List Char) → Nat → List Char
  | [], pos => s.drop pos
  | (i, m) :: rest, pos =>
    (s.drop pos).take (i - pos) ++ (m ++ ['c']) ++ applyOverwrites s rest (i + m.length)

/-- The reference-rewriting step of `writeBundle` on one chunk's code. -/
def rewriteRefs (chunkNames : List String) (s : List Char) : List Char :=
  applyOverwrites s (execAll chunkNames s) 0

/-- The rewriting step including the `if (_code.match(bytecodeRE))` guard
of the source. -/
def rewriteGuarded (chunkNames : List String) (s : List Char) : List Char :=
  if (execAll chunkNames s).isEmpty then s else rewriteRefs chunkNames s

/-- Well-formedness of an overwrite list relative to cursor `pos`: spans
start at or after `pos`, lie within the text, are nonempty, and each
matched text is the span of the original text at its offset. -/
def EditsWF (s : List Char) : Nat → List (Nat × List Char) → Prop
  | _, [] => True
  | pos, (i, m) :: rest =>
    pos ≤ i ∧ m ≠ [] ∧ i + m.length ≤ s.length ∧ m <+: s.drop i ∧
      EditsWF s (i + m.length) rest

/-- Every edit of a well-formed list starts at or after the cursor. -/
theorem EditsWF_start_ge (s : List Char) :
    ∀ (edits : List (Nat × List Char)) (pos : Nat), EditsWF s pos edits →
    ∀ e ∈ edits, pos ≤ e.1 := by
  intro edits
  induction edits with
  | nil => intro pos _ e he; exact absurd he (List.not_mem_nil _)
  | cons hd rest ih =>
    obtain ⟨i, m⟩ := hd
    intro pos hwf e he
    obtain ⟨h1, _, _, _, h5⟩ := hwf
    rcases List.mem_cons.mp he with rfl | he
    · exact h1
    · have := ih (i + m.length) h5 e he
      omega

/-- Number of matched spans ending at or before position `p`. -/
def editsBefore (p : Nat) (edits : List (Nat × List Char)) : Nat :=
  (edits.filter (fun e => decide (e.1 + e.2.length ≤ p))).length

/-- No span of a well-formed list starting after `p` ends at or before
`p`. -/
theorem editsBefore_eq_zero (s : List Char) :
    ∀ (edits : List (Nat × List Char)) (p q : Nat), p < q →
    EditsWF s q edits → editsBefore p edits = 0 := by
  intro edits
  induction edits with
  | nil => intro p q _ _; rfl
  | cons hd rest ih =>
    obtain ⟨i, m⟩ := hd
    intro p q hpq hwf
    obtain ⟨h1, _, _, _, h5⟩ := hwf
    have hrest := ih p (i + m.length) (by omega) h5
    simp only [editsBefore, List.filter_cons] at hrest ⊢
    rw [if_neg (by simp; omega)]
    exact hrest

/-- Serialized length: the original length (from the cursor) plus one
appended character per edit. -/
theorem applyOverwrites_length (s : List Char) :
    ∀ (edits : List (Nat × List Char)) (pos : Nat),
    EditsWF s pos edits → pos ≤ s.length →
    (applyOverwrites s edits pos).length = (s.length - pos) + edits.length := by
  intro edits
  induction edits with
  | nil =>
    intro pos _ hpos
    simp [applyOverwrites]
  | cons hd rest ih =>
    obtain ⟨i, m⟩ := hd
    intro pos hwf hpos
    obtain ⟨h1, h2, h3, _, h5⟩ := hwf
    simp only [applyOverwrites, List.length_append, List.length_take, List.length_drop,
      List.length_cons, List.length_nil]
    rw [ih (i + m.length) h5 (by omega)]
    omega

/-- Characters outside every edited span are copied unchanged, appearing
shifted by the number of earlier insertions. -/
theorem applyOverwrites_outside (s : List Char) :
    ∀ (edits : List (Nat × List Char)) (pos p : Nat),
    EditsWF s pos edits → pos ≤ p → p < s.length →
    (∀ e ∈ edits, p < e.1 ∨ e.1 + e.2.length ≤ p) →
    (applyOverwrites s edits pos)[p - pos + editsBefore p edits]? = s[p]? := by
  intro edits
  induction edits with
  | nil =>
    intro pos p _ hpos hp _
    simp only [applyOverwrites, editsBefore, List.filter_nil, List.length_nil, Nat.add_zero,
      List.getElem?_drop]
    congr 1
    omega
  | cons hd rest ih =>
    obtain ⟨i, m⟩ := hd
    intro pos p hwf hpos hp hout
    obtain ⟨h1, h2, h3, _, h5⟩ := hwf
    have hmlen : 0 < m.length := List.length_pos.mpr h2
    simp only [applyOverwrites]
    rcases hout (i, m) (List.mem_cons_self _ _) with hcase | hcase
    · -- p lies in the gap before this span
      have hcase' : p < i := hcase
      have hzero : editsBefore p ((i, m) :: rest) = 0 := by
        simp only [editsBefore, List.filter_cons]
        rw [if_neg (by simp; omega)]
        exact editsBefore_eq_zero s rest p (i + m.length) (by omega) h5
      rw [hzero, Nat.add_zero, List.getElem?_append, if_pos (by simp; omega),
        List.getElem?_append, if_pos (by simp; omega)]
      rw [List.getElem?_take_of_lt (by omega), List.getElem?_drop]
      congr 1
      omega
    · -- p lies after this span
      have hcase' : i + m.length ≤ p := hcase
      have hcount : editsBefore p ((i, m) :: rest) = editsBefore p rest + 1 := by
        simp only [editsBefore, List.filter_cons]
        rw [if_pos (by simp; omega)]
        simp [Nat.add_comm]
      have hmid : (((s.drop pos).take (i - pos)) ++ (m ++ ['c'])).length =
          (i - pos) + (m.length + 1) := by
        simp
        omega
      rw [hcount, List.getElem?_append_right (by rw [hmid]; omega), hmid]
      have hidx : p - pos + (editsBefore p rest + 1) - ((i - pos) + (m.length + 1)) =
          p - (i + m.length) + editsBefore p rest := by
        omega
      rw [hidx]
      exact ih (i + m.length) p h5 (by omega) hp
        (fun e he => hout e (List.mem_cons_of_mem _ he))

/-- Well-formedness only constrains spans from the cursor upward, so it is
downward monotone in the cursor. -/
theorem EditsWF_mono (s : List Char) (edits : List (Nat × List Char)) (pos pos' : Nat)
    (hle : pos' ≤ pos) (h : EditsWF s pos edits) : EditsWF s pos' edits := by
  cases edits with
  | nil => trivial
  | cons hd rest =>
    obtain ⟨i, m⟩ := hd
    obtain ⟨h1, h2, h3, h4, h5⟩ := h
    exact ⟨by omega, h2, h3, h4, h5⟩

/-- The exec loop produces a well-formed overwrite list: offsets increase,
spans are nonempty, in bounds, and reproduce the original text. -/
theorem execAllAux_wf (chunkNames : List String) :
    ∀ (fuel : Nat) (t : List Char), t.length ≤ fuel → ∀ (i : Nat) (s : List Char),
    s.drop i = t → i ≤ s.length →
    EditsWF s i (execAllAux chunkNames fuel t i) := by
  intro fuel
  induction fuel with
  | zero =>
    intro t ht i s hdrop hi
    rw [execAllAux]
    trivial
  | succ fuel ih =>
    intro t ht i s hdrop hi
    cases t with
    | nil =>
      rw [execAllAux]
      trivial
    | cons c rest =>
      have hslen : s.length = i + rest.length + 1 := by
        have h1 : (s.drop i).length = s.length - i := List.length_drop i s
        rw [hdrop] at h1
        simp at h1
        omega
      rw [execAllAux]
      cases hm : matchHere chunkNames (c :: rest) with
      | none =>
        have hdrop' : s.drop (i + 1) = rest := by
          rw [← List.tail_drop, hdrop, List.tail_cons]
        have hrec := ih rest (by simp at ht; omega) (i + 1) s hdrop' (by omega)
        exact EditsWF_mono s _ (i + 1) i (by omega) hrec
      | some m =>
        have hmne : m ≠ [] := matchHere_ne_nil _ _ _ hm
        have hmpre : m <+: (c :: rest) := matchHere_prefix _ _ _ hm
        have hmlen : m.length ≤ rest.length + 1 := by
          have := hmpre.length_le
          simpa using this
        have hmpos : 0 < m.length := List.length_pos.mpr hmne
        refine ⟨Nat.le_refl i, hmne, by omega, hdrop ▸ hmpre, ?_⟩
        have hdrop' : s.drop (i + m.length) = (c :: rest).drop m.length := by
          rw [← hdrop, List.drop_drop]
        exact ih ((c :: rest).drop m.length)
          (by simp at ht ⊢; omega) (i + m.length) s hdrop' (by omega)

/-- C1: for every chunk text and every non-empty list of non-empty
compiled chunk names, the matches found by the exec loop form a
well-formed span list, the rewritten output's length is the input length
plus the number of matches (one `'c'` appended per matched span), and
every character outside the matched spans is copied unchanged, at its
original position shifted by the number of earlier appended characters. -/
theorem writeBundle_rewrite_spec (chunkNames : List String) (s : List Char)
    (hne : chunkNames ≠ []) (hnn : ∀ nm ∈ chunkNames, nm.data ≠ []) :
    EditsWF s 0 (execAll chunkNames s) ∧
    (rewriteRefs chunkNames s).length = s.length + (execAll chunkNames s).length ∧
    ∀ p, p < s.length →
      (∀ e ∈ execAll chunkNames s, p < e.1 ∨ e.1 + e.2.length ≤ p) →
      (rewriteRefs chunkNames s)[p + editsBefore p (execAll chunkNames s)]? = s[p]? := by
  have hwf : EditsWF s 0 (execAll chunkNames s) :=
    execAllAux_wf chunkNames s.length s (Nat.le_refl _) 0 s rfl (Nat.zero_le _)
  refine ⟨hwf, ?_, ?_⟩
  · rw [rewriteRefs, applyOverwrites_length s _ 0 hwf (Nat.zero_le _)]
    omega
  · intro p hp hout
    have := applyOverwrites_outside s (execAll chunkNames s) 0 p hwf
      (Nat.zero_le _) hp hout
    simpa [rewriteRefs] using this

/-- Witness for C1: rewriting `xaby` with the single chunk name `ab`
appends one character to the matched span and copies the characters at
positions 0 and 3 unchanged. -/
theorem writeBundle_rewrite_spec_witness :
    ((rewriteRefs ["ab"] "xaby".data).length =
      "xaby".data.length + (execAll ["ab"] "xaby".data).length) ∧
    (rewriteRefs ["ab"] "xaby".data)[3 + editsBefore 3 (execAll ["ab"] "xaby".data)]? =
      "xaby".data[3]? :=
  ⟨(writeBundle_rewrite_spec ["ab"] "xaby".data (by decide) (by decide)).2.1,
   (writeBundle_rewrite_spec ["ab"] "xaby".data (by decide) (by decide)).2.2 3
     (by decide) (by decide)⟩

/-! ## Dependency propagator (`writeBundle`, bytecode.ts lines 258-276)

For a non-compiled entry chunk:
`const idsToHandle = new Set([...chunk.imports, ...chunk.dynamicImports])`
then `for (const moduleId of idsToHandle)`: break with
`hasBytecodeMoudle = true` as soon as a compiled chunk id is found,
otherwise add the `importers` and `dynamicImporters` of the module's info
(when it exists and is not external) to the set being iterated. A JS `Set`
iterates in insertion order and visits elements inserted during iteration;
this is embedded as a `seen` list (the set contents in insertion order)
plus the `queue` of not-yet-visited elements. The `fuel` argument only
bounds the number of iterations; each visited element is inserted exactly
once, so the fuel computed by `propagationFuel` is proved sufficient. -/

/-- `this.getModuleInfo(moduleId)` over a finite module table. -/
def lookupModuleInfo (mods : List (String × ModuleInfo)) (id : String) : Option ModuleInfo :=
  (mods.find? (fun p => p.1 == id)).map Prod.snd

/-- `idsToHandle.add(id)` of a JS Set: append to the insertion order (and
the pending queue) only when not already present. -/
def addId (sq : List String × List String) (j : String) : List String × List String :=
  if j ∈ sq.1 then sq else (sq.1 ++ [j], sq.2 ++ [j])

/-- Add every candidate importer in order. -/
def addIds (sq : List String × List String) (js : List String) : List String × List String :=
  js.foldl addId sq

/-- `new Set([...])`: deduplicate, keeping first occurrences in order. -/
def dedupAdd (l : List String) : List String :=
  l.foldl (fun acc j => if j ∈ acc then acc else acc ++ [j]) []

/-- Every module id any lookup can ever add to the frontier: the
concatenation of all importer lists of the module table. -/
def univList (mods : List (String × ModuleInfo)) : List String :=
  mods.flatMap (fun p => p.2.importers ++ p.2.dynamicImporters)

/-- An upper bound on the number of loop iterations: every iteration pops
one element, and every element ever pushed is a seed or a member of
`univList` pushed at most once. -/
def propagationFuel (mods : List (String × ModuleInfo)) (seeds : List String) : Nat :=
  seeds.length + (univList mods).length + 1

/-- The `for (const moduleId of idsToHandle)` loop. `seen` is the set
contents in insertion order, `queue` the suffix not yet visited. Returns
`none` only on fuel exhaustion, which `propagation_terminates` rules out
for the fuel supplied by `hasBytecodeMoudle`. -/
def propagateFuel (bytecodeChunks : List String) (mods : List (String × ModuleInfo)) :
    Nat → List String → List String → Option Bool
  | 0, _, _ => none
  | _ + 1, _, [] => some false
  | fuel + 1, seen, id :: queue =>
    if id ∈ bytecodeChunks then some true
    else
      match lookupModuleInfo mods id with
      | some info =>
        if info.isExternal then propagateFuel bytecodeChunks mods fuel seen queue
        else
          let sq := addIds (seen, queue) (info.importers ++ info.dynamicImporters)
          propagateFuel bytecodeChunks mods fuel sq.1 sq.2
      | none => propagateFuel bytecodeChunks mods fuel seen queue

/-- The `hasBytecodeMoudle` flag computed for one entry chunk (the name
keeps the source's spelling). -/
def hasBytecodeMoudle (bytecodeChunks : List String) (mods : List (String × ModuleInfo))
    (imports dynamicImports : List String) : Option Bool :=
  let seeds := dedupAdd (imports ++ dynamicImports)
  propagateFuel bytecodeChunks mods (propagationFuel mods seeds) seeds seeds

/-- JS `String.replace` with a string pattern: replace the first
occurrence only; the string is unchanged when the pattern does not occur. -/
def replaceFirst : List Char → List Char → List Char → List Char
  | [], pat, rep => if pat.isPrefixOf ([] : List Char) then rep else []
  | c :: rest, pat, rep =>
    if pat.isPrefixOf (c :: rest) then rep ++ (c :: rest).drop pat.length
    else c :: replaceFirst rest pat rep

/-- The propagation stage applied to a non-compiled entry chunk's code:
`_code = hasBytecodeMoudle ? _code.replace('"use strict";', requireBytecodeLoaderStr) : _code`. -/
def propagateEntryCode (bytecodeChunks : List String) (mods : List (String × ModuleInfo))
    (chunk : Chunk) (code : List Char) : List Char :=
  if (hasBytecodeMoudle bytecodeChunks mods chunk.imports chunk.dynamicImports).getD false then
    replaceFirst code "\"use strict\";".data requireBytecodeLoaderStr.data
  else code

/-- The frontier closure the specification describes: the seeds (the
entry's direct static and dynamic import ids) closed under adding the
importers and dynamic importers of any non-external member. -/
inductive InFrontier (mods : List (String × ModuleInfo)) (seeds : List String) : String → Prop
  | seed (id : String) : id ∈ seeds → InFrontier mods seeds id
  | step (id j : String) (info : ModuleInfo) :
      InFrontier mods seeds id →
      lookupModuleInfo mods id = some info →
      info.isExternal = false →
      j ∈ info.importers ++ info.dynamicImporters →
      InFrontier mods seeds j

/-- A module id is processed relative to a set `S` when its importer
expansion stays inside `S`. -/
def Processed (mods : List (String × ModuleInfo)) (S : List String) (x : String) : Prop :=
  ∀ info, lookupModuleInfo mods x = some info → info.isExternal = false →
    ∀ j ∈ info.importers ++ info.dynamicImporters, j ∈ S

/-! ### Termination of the propagation loop -/

/-- Effect of adding a candidate list to the set: some fresh suffix `ns`
of pairwise-distinct, previously-absent candidates is appended to both the
insertion order and the queue, and afterwards every candidate is present. -/
theorem addIds_spec (cand : List String) : ∀ (seen queue : List String),
    ∃ ns : List String,
      addIds (seen, queue) cand = (seen ++ ns, queue ++ ns) ∧
      ns.Nodup ∧
      (∀ x ∈ ns, x ∈ cand ∧ x ∉ seen) ∧
      (∀ x ∈ cand, x ∈ seen ++ ns) := by
  induction cand with
  | nil =>
    intro seen queue
    exact ⟨[], by simp [addIds], List.nodup_nil, by simp, by simp⟩
  | cons j cand ih =>
    intro seen queue
    by_cases hj : j ∈ seen
    · have hstep : addId (seen, queue) j = (seen, queue) := by simp [addId, hj]
      obtain ⟨ns, heq, hnd, hmem, hcov⟩ := ih seen queue
      refine ⟨ns, ?_, hnd, ?_, ?_⟩
      · rw [addIds, List.foldl_cons, hstep]
        exact heq
      · exact fun x hx => ⟨List.mem_cons_of_mem _ (hmem x hx).1, (hmem x hx).2⟩
      · intro x hx
        rcases List.mem_cons.mp hx with rfl | hx
        · exact List.mem_append_left _ hj
        · exact hcov x hx
    · have hstep : addId (seen, queue) j = (seen ++ [j], queue ++ [j]) := by
        simp [addId, hj]
      obtain ⟨ns, heq, hnd, hmem, hcov⟩ := ih (seen ++ [j]) (queue ++ [j])
      refine ⟨j :: ns, ?_, ?_, ?_, ?_⟩
      · rw [addIds, List.foldl_cons, hstep]
        calc (addIds (seen ++ [j], queue ++ [j]) cand : List String × List String)
            = ((seen ++ [j]) ++ ns, (queue ++ [j]) ++ ns) := heq
          _ = (seen ++ j :: ns, queue ++ j :: ns) := by
              rw [List.append_assoc, List.append_assoc]
              rfl
      · refine List.nodup_cons.mpr ⟨?_, hnd⟩
        intro hjin
        have := (hmem j hjin).2
        simp at this
      · intro x hx
        rcases List.mem_cons.mp hx with rfl | hx
        · exact ⟨List.mem_cons_self _ _, hj⟩
        · obtain ⟨h1, h2⟩ := hmem x hx
          exact ⟨List.mem_cons_of_mem _ h1, fun hs => h2 (List.mem_append_left _ hs)⟩
      · intro x hx
        rcases List.mem_cons.mp hx with rfl | hx
        · exact List.mem_append_right _ (List.mem_cons_self _ _)
        · have := hcov x hx
          simp only [List.mem_append, List.mem_singleton, List.mem_cons] at this ⊢
          tauto

/-- Membership after the deduplicating fold. -/
theorem mem_foldl_add (l : List String) : ∀ (acc : List String) (x : String),
    x ∈ l.foldl (fun acc j => if j ∈ acc then acc else acc ++ [j]) acc ↔ x ∈ acc ∨ x ∈ l := by
  induction l with
  | nil => intro acc x; simp
  | cons j l ih =>
    intro acc x
    rw [List.foldl_cons, ih]
    by_cases hj : j ∈ acc
    · rw [if_pos hj]
      constructor
      · rintro (h | h)
        · exact Or.inl h
        · exact Or.inr (List.mem_cons_of_mem _ h)
      · rintro (h | h)
        · exact Or.inl h
        · rcases List.mem_cons.mp h with rfl | h
          · exact Or.inl hj
          · exact Or.inr h
    · rw [if_neg hj]
      constructor
      · rintro (h | h)
        · rcases List.mem_append.mp h with h | h
          · exact Or.inl h
          · simp at h
            subst h
            exact Or.inr (List.mem_cons_self _ _)
        · exact Or.inr (List.mem_cons_of_mem _ h)
      · rintro (h | h)
        · exact Or.inl (List.mem_append_left _ h)
        · rcases List.mem_cons.mp h with rfl | h
          · exact Or.inl (List.mem_append_right _ (List.mem_singleton.mpr rfl))
          · exact Or.inr h

/-- `new Set` keeps exactly the members of its argument. -/
theorem mem_dedupAdd (l : List String) (x : String) : x ∈ dedupAdd l ↔ x ∈ l := by
  rw [dedupAdd, mem_foldl_add]
  simp

/-- Whatever a module lookup can contribute to the frontier is listed in
`univList`. -/
theorem lookup_sub_univ (mods : List (String × ModuleInfo)) :
    ∀ (id : String) (info : ModuleInfo), lookupModuleInfo mods id = some info →
    ∀ x ∈ info.importers ++ info.dynamicImporters, x ∈ univList mods := by
  induction mods with
  | nil => intro id info h; simp [lookupModuleInfo] at h
  | cons p mods ih =>
    intro id info h
    rw [lookupModuleInfo] at h
    simp only [List.find?] at h
    by_cases hp : (p.1 == id) = true
    · rw [hp] at h
      simp at h
      subst h
      intro x hx
      exact List.mem_flatMap.mpr ⟨p, List.mem_cons_self _ _, hx⟩
    · rw [Bool.not_eq_true] at hp
      rw [hp] at h
      intro x hx
      have := ih id info (by rw [lookupModuleInfo]; exact h) x hx
      rw [univList, List.flatMap_cons]
      exact List.mem_append_right _ this

/-- Removing one satisfying element of a duplicate-free list from a filter
drops its length by one. -/
theorem filter_length_drop_one (univD : List String) :
    ∀ (p : String → Bool) (y : String), univD.Nodup → y ∈ univD → p y = true →
    (univD.filter (fun x => p x && !(x == y))).length + 1 = (univD.filter p).length := by
  induction univD with
  | nil => intro p y _ hy _; cases hy
  | cons a l ih =>
    intro p y hnd hy hpy
    rcases List.mem_cons.mp hy with rfl | hy
    · have hyl : y ∉ l := (List.nodup_cons.mp hnd).1
      have hfl : l.filter (fun x => p x && !(x == y)) = l.filter p := by
        apply List.filter_congr
        intro x hx
        have hxy : (x == y) = false := by
          rw [beq_eq_false_iff_ne]
          intro h
          subst h
          exact hyl hx
        simp [hxy]
      rw [List.filter_cons, List.filter_cons, hfl, if_pos hpy, if_neg (by simp)]
      simp
    · have hnd' := (List.nodup_cons.mp hnd).2
      have hrec := ih p y hnd' hy hpy
      rw [List.filter_cons, List.filter_cons]
      by_cases hpa : p a = true
      · have hay : (a == y) = false := by
          rw [beq_eq_false_iff_ne]
          intro h
          subst h
          exact (List.nodup_cons.mp hnd).1 hy
        rw [if_pos (by simp [hpa, hay]), if_pos hpa]
        simp only [List.length_cons]
        omega
      · have hpa' : p a = false := by
          revert hpa
          cases p a <;> simp
        rw [if_neg (by simp [hpa']), if_neg (by simp [hpa'])]
        exact hrec

/-- Adding a fresh duplicate-free batch `ns` to `seen` removes exactly
`ns.length` elements from the not-yet-seen filter. -/
theorem filter_not_mem_counts (univD : List String) (hnd : univD.Nodup) :
    ∀ (ns seen : List String), ns.Nodup → (∀ x ∈ ns, x ∈ univD ∧ x ∉ seen) →
    (univD.filter (fun x => decide (x ∉ seen ++ ns))).length + ns.length =
      (univD.filter (fun x => decide (x ∉ seen))).length := by
  intro ns
  induction ns with
  | nil => intro seen _ _; simp
  | cons y ns ih =>
    intro seen hnd' hsub
    have hy := hsub y (List.mem_cons_self _ _)
    have hstep : (univD.filter (fun x => decide (x ∉ seen ++ [y]))).length + 1 =
        (univD.filter (fun x => decide (x ∉ seen))).length := by
      have hcong : univD.filter (fun x => decide (x ∉ seen ++ [y])) =
          univD.filter (fun x => decide (x ∉ seen) && !(x == y)) := by
        apply List.filter_congr
        intro x _
        by_cases h1 : x ∈ seen
        · simp [h1]
        · by_cases h2 : x = y
          · subst h2
            simp [h1]
          · simp [h1, h2]
      rw [hcong]
      exact filter_length_drop_one univD (fun x => decide (x ∉ seen)) y hnd hy.1
        (by simp [hy.2])
    have hsub' : ∀ x ∈ ns, x ∈ univD ∧ x ∉ seen ++ [y] := by
      intro x hx
      refine ⟨(hsub x (List.mem_cons_of_mem _ hx)).1, ?_⟩
      intro hmem
      rcases List.mem_append.mp hmem with h | h
      · exact (hsub x (List.mem_cons_of_mem _ hx)).2 h
      · simp at h
        subst h
        exact (List.nodup_cons.mp hnd').1 hx
    have hrec := ih (seen ++ [y]) (List.nodup_cons.mp hnd').2 hsub'
    have hre : seen ++ y :: ns = (seen ++ [y]) ++ ns := List.append_cons seen y ns
    simp only [hre, List.length_cons]
    omega

/-- With more fuel than the pending queue plus the not-yet-inserted part
of the importer universe, the loop reaches a verdict. -/
theorem propagateFuel_some (bc : List String) (mods : List (String × ModuleInfo)) :
    ∀ (fuel : Nat) (seen queue : List String),
    queue.length + ((univList mods).dedup.filter (fun x => decide (x ∉ seen))).length < fuel →
    propagateFuel bc mods fuel seen queue ≠ none := by
  intro fuel
  induction fuel with
  | zero => intro seen queue h; omega
  | succ fuel ih =>
    intro seen queue h
    cases queue with
    | nil =>
      rw [propagateFuel]
      simp
    | cons id queue =>
      rw [propagateFuel]
      by_cases hid : id ∈ bc
      · rw [if_pos hid]
        simp
      · rw [if_neg hid]
        cases hl : lookupModuleInfo mods id with
        | none =>
          apply ih
          simp only [List.length_cons] at h
          omega
        | some info =>
          show (if info.isExternal = true then propagateFuel bc mods fuel seen queue
            else
              let sq := addIds (seen, queue) (info.importers ++ info.dynamicImporters)
              propagateFuel bc mods fuel sq.1 sq.2) ≠ none
          by_cases hext : info.isExternal = true
          · rw [if_pos hext]
            apply ih
            simp only [List.length_cons] at h
            omega
          · rw [if_neg hext]
            obtain ⟨ns, heq, hnd, hmem, _⟩ :=
              addIds_spec (info.importers ++ info.dynamicImporters) seen queue
            simp only [heq]
            apply ih
            have hcand : ∀ x ∈ ns, x ∈ (univList mods).dedup ∧ x ∉ seen := by
              intro x hx
              obtain ⟨h1, h2⟩ := hmem x hx
              exact ⟨List.mem_dedup.mpr (lookup_sub_univ mods id info hl x h1), h2⟩
            have hcount := filter_not_mem_counts (univList mods).dedup
              (List.nodup_dedup _) ns seen hnd hcand
            simp only [List.length_append, List.length_cons] at h ⊢
            omega

/-- C10: the dependency-propagation loop of `writeBundle` terminates for
every finite module graph: it iterates over a set that grows during
iteration, but each module id is inserted at most once and every inserted
id is a seed or listed in the finite importer lists of the graph, so the
fuel `hasBytecodeMoudle` supplies is never exhausted and the loop reaches
a verdict. -/
theorem propagation_terminates (bytecodeChunks : List String)
    (mods : List (String × ModuleInfo)) (imports dynamicImports : List String) :
    hasBytecodeMoudle bytecodeChunks mods imports dynamicImports ≠ none := by
  refine propagateFuel_some bytecodeChunks mods
    (propagationFuel mods (dedupAdd (imports ++ dynamicImports)))
    (dedupAdd (imports ++ dynamicImports)) (dedupAdd (imports ++ dynamicImports)) ?_
  rw [propagationFuel]
  have h1 : ((univList mods).dedup.filter
      (fun x => decide (x ∉ dedupAdd (imports ++ dynamicImports)))).length ≤
      (univList mods).dedup.length := List.length_filter_le _ _
  have h2 : (univList mods).dedup.length ≤ (univList mods).length :=
    (List.dedup_sublist _).length_le
  omega

/-! ### The frontier reached by the loop -/

/-- Frontier membership is monotone in the seed set. -/
theorem InFrontier_mono (mods : List (String × ModuleInfo)) (seeds seeds' : List String)
    (hsub : ∀ x ∈ seeds, x ∈ seeds') :
    ∀ x, InFrontier mods seeds x → InFrontier mods seeds' x := by
  intro x hx
  induction hx with
  | seed id hid => exact .seed id (hsub id hid)
  | step id j info _ hl hext hj ih => exact .step id j info ih hl hext hj

/-- A set all of whose members are processed contains its own frontier. -/
theorem InFrontier_closed_subset (mods : List (String × ModuleInfo)) (S : List String)
    (hproc : ∀ x ∈ S, Processed mods S x) :
    ∀ x, InFrontier mods S x → x ∈ S := by
  intro x hx
  induction hx with
  | seed id hid => exact hid
  | step id j info _ hl hext hj ih => exact hproc id ih info hl hext j hj

/-- If the loop answers `true`, some frontier member is a compiled chunk. -/
theorem propagateFuel_true_sound (bc : List String) (mods : List (String × ModuleInfo))
    (seeds : List String) :
    ∀ (fuel : Nat) (seen queue : List String),
    (∀ x ∈ seen, InFrontier mods seeds x) → (∀ x ∈ queue, x ∈ seen) →
    propagateFuel bc mods fuel seen queue = some true →
    ∃ id, InFrontier mods seeds id ∧ id ∈ bc := by
  intro fuel
  induction fuel with
  | zero =>
    intro seen queue _ _ h
    simp [propagateFuel] at h
  | succ fuel ih =>
    intro seen queue hseen hqueue h
    cases queue with
    | nil => simp [propagateFuel] at h
    | cons id queue =>
      rw [propagateFuel] at h
      by_cases hid : id ∈ bc
      · exact ⟨id, hseen id (hqueue id (List.mem_cons_self _ _)), hid⟩
      · rw [if_neg hid] at h
        cases hl : lookupModuleInfo mods id with
        | none =>
          simp only [hl] at h
          exact ih seen queue hseen (fun x hx => hqueue x (List.mem_cons_of_mem _ hx)) h
        | some info =>
          simp only [hl] at h
          by_cases hext : info.isExternal = true
          · rw [if_pos hext] at h
            exact ih seen queue hseen (fun x hx => hqueue x (List.mem_cons_of_mem _ hx)) h
          · rw [if_neg hext] at h
            obtain ⟨ns, heq, hnd, hmem, _⟩ :=
              addIds_spec (info.importers ++ info.dynamicImporters) seen queue
            simp only [heq] at h
            have hextF : info.isExternal = false := by
              revert hext
              cases info.isExternal <;> simp
            have hseen' : ∀ x ∈ seen ++ ns, InFrontier mods seeds x := by
              intro x hx
              rcases List.mem_append.mp hx with hx | hx
              · exact hseen x hx
              · have hidF : InFrontier mods seeds id :=
                  hseen id (hqueue id (List.mem_cons_self _ _))
                exact InFrontier.step id x info hidF hl hextF (hmem x hx).1
            have hqueue' : ∀ x ∈ queue ++ ns, x ∈ seen ++ ns := by
              intro x hx
              rcases List.mem_append.mp hx with hx | hx
              · exact List.mem_append_left _ (hqueue x (List.mem_cons_of_mem _ hx))
              · exact List.mem_append_right _ hx
            exact ih (seen ++ ns) (queue ++ ns) hseen' hqueue' h

/-- If the loop answers `false`, no frontier member of the visited set is
a compiled chunk; the invariant states that every already-visited member
has been expanded into the set. -/
theorem propagateFuel_false_sound (bc : List String) (mods : List (String × ModuleInfo)) :
    ∀ (fuel : Nat) (seen queue : List String),
    propagateFuel bc mods fuel seen queue = some false →
    (∀ x ∈ seen, x ∉ queue → x ∉ bc ∧ Processed mods seen x) →
    ∀ x, InFrontier mods seen x → x ∉ bc := by
  intro fuel
  induction fuel with
  | zero =>
    intro seen queue h
    simp [propagateFuel] at h
  | succ fuel ih =>
    intro seen queue h hinv
    cases queue with
    | nil =>
      have hall : ∀ x ∈ seen, x ∉ bc ∧ Processed mods seen x :=
        fun x hx => hinv x hx (List.not_mem_nil _)
      intro x hx
      have hxin : x ∈ seen :=
        InFrontier_closed_subset mods seen (fun y hy => (hall y hy).2) x hx
      exact (hall x hxin).1
    | cons id queue =>
      rw [propagateFuel] at h
      by_cases hid : id ∈ bc
      · rw [if_pos hid] at h
        simp at h
      · rw [if_neg hid] at h
        cases hl : lookupModuleInfo mods id with
        | none =>
          simp only [hl] at h
          apply ih seen queue h
          intro x hx hxq
          by_cases hxid : x = id
          · subst hxid
            refine ⟨hid, ?_⟩
            intro info hinfo
            rw [hl] at hinfo
            cases hinfo
          · exact hinv x hx (by simp [hxid, hxq])
        | some info =>
          simp only [hl] at h
          by_cases hext : info.isExternal = true
          · rw [if_pos hext] at h
            apply ih seen queue h
            intro x hx hxq
            by_cases hxid : x = id
            · subst hxid
              refine ⟨hid, ?_⟩
              intro info' hinfo' hext'
              rw [hl] at hinfo'
              injection hinfo' with he
              subst he
              rw [hext] at hext'
              cases hext'
            · exact hinv x hx (by simp [hxid, hxq])
          · rw [if_neg hext] at h
            obtain ⟨ns, heq, hnd, hmem, hcov⟩ :=
              addIds_spec (info.importers ++ info.dynamicImporters) seen queue
            simp only [heq] at h
            have hinv' : ∀ x ∈ seen ++ ns, x ∉ queue ++ ns →
                x ∉ bc ∧ Processed mods (seen ++ ns) x := by
              intro x hx hxq
              rcases List.mem_append.mp hx with hxs | hxn
              · by_cases hxid : x = id
                · subst hxid
                  refine ⟨hid, ?_⟩
                  intro info' hinfo' hext' j hj
                  rw [hl] at hinfo'
                  injection hinfo' with he
                  subst he
                  exact hcov j hj
                · have hxq' : x ∉ id :: queue := by
                    intro hmem'
                    rcases List.mem_cons.mp hmem' with h' | h'
                    · exact hxid h'
                    · exact hxq (List.mem_append_left _ h')
                  obtain ⟨hbc, hproc⟩ := hinv x hxs hxq'
                  refine ⟨hbc, ?_⟩
                  intro info' hinfo' hext' j hj
                  exact List.mem_append_left _ (hproc info' hinfo' hext' j hj)
              · exact absurd (List.mem_append_right _ hxn) hxq
            have hres := ih (seen ++ ns) (queue ++ ns) h hinv'
            intro x hx
            exact hres x (InFrontier_mono mods seen (seen ++ ns)
              (fun y hy => List.mem_append_left _ hy) x hx)

/-- The loop's verdict characterized: `hasBytecodeMoudle` answers `true`
exactly when the frontier seeded with the entry's direct static and
dynamic imports (and expanded through reverse importer edges of
non-external modules) contains a compiled chunk id. -/
theorem hasBytecodeMoudle_iff (bc : List String) (mods : List (String × ModuleInfo))
    (imports dynamicImports : List String) :
    hasBytecodeMoudle bc mods imports dynamicImports = some true ↔
      ∃ id, InFrontier mods (imports ++ dynamicImports) id ∧ id ∈ bc := by
  constructor
  · intro h
    have hsound := propagateFuel_true_sound bc mods (dedupAdd (imports ++ dynamicImports))
      (propagationFuel mods (dedupAdd (imports ++ dynamicImports)))
      (dedupAdd (imports ++ dynamicImports)) (dedupAdd (imports ++ dynamicImports))
      (fun x hx => InFrontier.seed x hx) (fun x hx => hx) h
    obtain ⟨id, hf, hb⟩ := hsound
    refine ⟨id, ?_, hb⟩
    exact InFrontier_mono mods (dedupAdd (imports ++ dynamicImports))
      (imports ++ dynamicImports) (fun x hx => (mem_dedupAdd _ x).mp hx) id hf
  · rintro ⟨id, hf, hb⟩
    cases hres : hasBytecodeMoudle bc mods imports dynamicImports with
    | none => exact absurd hres (propagation_terminates bc mods imports dynamicImports)
    | some b =>
      cases b with
      | true => rfl
      | false =>
        have hfalse := propagateFuel_false_sound bc mods
          (propagationFuel mods (dedupAdd (imports ++ dynamicImports)))
          (dedupAdd (imports ++ dynamicImports)) (dedupAdd (imports ++ dynamicImports))
          hres (fun x hx hxq => absurd hx hxq)
        have hfd : InFrontier mods (dedupAdd (imports ++ dynamicImports)) id :=
          InFrontier_mono mods (imports ++ dynamicImports)
            (dedupAdd (imports ++ dynamicImports))
            (fun x hx => (mem_dedupAdd _ x).mpr hx) id hf
        exact absurd hb (hfalse id hfd)

/-- Replacing a pattern that heads the string substitutes it in place. -/
theorem replaceFirst_of_prefix (pat rep rest : List Char) (hne : pat ≠ []) :
    replaceFirst (pat ++ rest) pat rep = rep ++ rest := by
  cases pat with
  | nil => exact absurd rfl hne
  | cons p ps =>
    show replaceFirst (p :: (ps ++ rest)) (p :: ps) rep = rep ++ rest
    rw [replaceFirst]
    have hpre : (p :: ps).isPrefixOf (p :: (ps ++ rest)) = true :=
      List.isPrefixOf_iff_prefix.mpr (by
        rw [← List.cons_append]
        exact List.prefix_append _ _)
    rw [if_pos hpre]
    calc rep ++ List.drop (p :: ps).length (p :: (ps ++ rest))
        = rep ++ List.drop ps.length (ps ++ rest) := by
          rw [List.length_cons, List.drop_succ_cons]
      _ = rep ++ rest := by rw [List.drop_left]

/-- C2: for every non-compiled entry chunk, the loop's verdict equals
frontier reachability of a compiled chunk through reverse importer edges,
an entry with no compiled chunk in its frontier keeps its code
byte-identical at this stage, and a marked entry whose code begins with
the strict-mode prologue has that prologue replaced by the
loader-requiring prologue. -/
theorem writeBundle_propagation_spec (bc : List String) (mods : List (String × ModuleInfo))
    (chunk : Chunk) (code : List Char) :
    ((hasBytecodeMoudle bc mods chunk.imports chunk.dynamicImports = some true) ↔
      ∃ id, InFrontier mods (chunk.imports ++ chunk.dynamicImports) id ∧ id ∈ bc) ∧
    ((¬ ∃ id, InFrontier mods (chunk.imports ++ chunk.dynamicImports) id ∧ id ∈ bc) →
      propagateEntryCode bc mods chunk code = code) ∧
    (∀ rest : List Char,
      (∃ id, InFrontier mods (chunk.imports ++ chunk.dynamicImports) id ∧ id ∈ bc) →
      code = "\"use strict\";".data ++ rest →
      propagateEntryCode bc mods chunk code = requireBytecodeLoaderStr.data ++ rest) := by
  refine ⟨hasBytecodeMoudle_iff bc mods chunk.imports chunk.dynamicImports, ?_, ?_⟩
  · intro hnot
    rw [propagateEntryCode]
    cases hres : hasBytecodeMoudle bc mods chunk.imports chunk.dynamicImports with
    | none => exact absurd hres (propagation_terminates bc mods chunk.imports chunk.dynamicImports)
    | some b =>
      cases b with
      | false => rfl
      | true =>
        exact absurd ((hasBytecodeMoudle_iff bc mods chunk.imports chunk.dynamicImports).mp hres)
          hnot
  · intro rest hex hcode
    rw [propagateEntryCode,
      (hasBytecodeMoudle_iff bc mods chunk.imports chunk.dynamicImports).mpr hex]
    rw [if_pos (show (some true).getD false = true from rfl)]
    rw [hcode]
    exact replaceFirst_of_prefix _ _ _ (by decide)

/-- Witness for C2: in a one-module graph where module `a` is imported by
the compiled chunk `m`, an entry importing `a` is marked (its frontier
reaches `m` through the reverse edge) and its prologue is replaced; the
frontier fact is produced by the theorem itself. -/
theorem writeBundle_propagation_spec_witness :
    (∃ id, InFrontier [("a", { isExternal := false, importers := ["m"], dynamicImporters := [] })]
        (["a"] ++ []) id ∧ id ∈ ["m"]) ∧
    propagateEntryCode ["m"]
        [("a", { isExternal := false, importers := ["m"], dynamicImporters := [] })]
        { name := "e", fileName := "e.js", code := "", isEntry := true, type := ChunkType.chunk,
          imports := ["a"], dynamicImports := [] }
        ("\"use strict\";X".data) =
      requireBytecodeLoaderStr.data ++ "X".data := by
  have h := writeBundle_propagation_spec ["m"]
    [("a", { isExternal := false, importers := ["m"], dynamicImporters := [] })]
    { name := "e", fileName := "e.js", code := "", isEntry := true, type := ChunkType.chunk,
      imports := ["a"], dynamicImports := [] }
    ("\"use strict\";X".data)
  have h1 := h.1.mp (by decide)
  exact ⟨h1, h.2.2 "X".data h1 (by decide)⟩

/-! ## Plugin hooks and renderer exclusion (bytecode.ts lines 180-214)

`configResolved` sets `useInRenderer` from the plugin list and warns once;
`renderChunk` returns `null` immediately for renderer targets;
`generateBundle` emits the loader asset only for non-renderer builds with
at least one compiled chunk; `writeBundle` returns before touching any
file when `useInRenderer` or no chunk was compiled. File-system effects of
`writeBundle` are embedded as a list of operations. -/

/-- A file-system effect of `writeBundle`. -/
inductive FileOp
  | write (name : String) (content : List Char ⊕ List Nat)
  | rename (oldName newName : String)
  | delete (name : String)
deriving DecidableEq, Repr

/-- `keepBundle`: rename to `_` + basename in the same directory
(`path.resolve(path.dirname(f), '_' + path.basename(f))`). -/
def keepBundleName (n : String) : String :=
  let parts := n.splitOn "/"
  String.intercalate "/" (parts.dropLast ++ ["_" ++ parts.getLastD ""])

/-- `configResolved`: detect the renderer preset among the resolved
plugins; returns the `useInRenderer` flag and the number of warnings
logged. -/
def configResolvedHook (pluginNames : List String) : Bool × Nat :=
  let useInRenderer := pluginNames.contains "vite:electron-renderer-preset-config"
  (useInRenderer, if useInRenderer then 1 else 0)

/-- `renderChunk`: returns the replacement code (`none` = leave the chunk
unchanged) and the updated `bytecodeChunks` accumulator. `transform`
stands for the babel arrow-function transform. -/
def renderChunkHook (useInRenderer transformArrowFunctions : Bool)
    (chunkAlias : List String) (transform : List Char → List Char)
    (bytecodeChunks : List String) (code : List Char) (chunk : Chunk) :
    Option (List Char) × List String :=
  if useInRenderer then (none, bytecodeChunks)
  else if chunk.type = ChunkType.chunk ∧ isBytecodeChunk chunkAlias chunk.name = true then
    let bcs := bytecodeChunks ++ [chunk.fileName]
    if transformArrowFunctions then (some (transform code), bcs) else (none, bcs)
  else (none, bytecodeChunks)

/-- `generateBundle`: the loader asset's file name, emitted at most once. -/
def generateBundleHook (useInRenderer : Bool) (bytecodeChunks : List String) : List String :=
  if useInRenderer = false ∧ bytecodeChunks ≠ [] then ["bytecode-loader.js"] else []

/-- The `writeBundle` handling of a single bundle entry (`compile` stands
for `compileToBytecode` on the already-rewritten code). -/
def chunkOps (bc : List String) (mods : List (String × ModuleInfo)) (removeBundleJS : Bool)
    (compile : List Char → List Nat) (name : String) (chunk : Chunk) : List FileOp :=
  match chunk.type with
  | ChunkType.asset => []
  | ChunkType.chunk =>
    let code1 := rewriteGuarded bc chunk.code.data
    if name ∈ bc then
      FileOp.write (name ++ "c") (Sum.inr (compile code1)) ::
      (if chunk.isEntry then
        (if removeBundleJS then [] else [FileOp.rename name (keepBundleName name)]) ++
        [FileOp.write name (Sum.inl (entryStub name).data)]
      else if removeBundleJS then [FileOp.delete name]
      else [FileOp.rename name (keepBundleName name)])
    else
      [FileOp.write name (Sum.inl
        (if chunk.isEntry then propagateEntryCode bc mods chunk code1 else code1))]

/-- `writeBundle`: no effects at all for renderer targets or when nothing
was compiled; otherwise the per-chunk operations over the output map. -/
def writeBundleHook (useInRenderer : Bool) (bc : List String)
    (mods : List (String × ModuleInfo)) (removeBundleJS : Bool)
    (compile : List Char → List Nat) (output : List (String × Chunk)) : List FileOp :=
  if useInRenderer = true ∨ bc = [] then []
  else output.flatMap (fun p => chunkOps bc mods removeBundleJS compile p.1 p.2)

/-- C8: for a renderer (browser-hosted) target every hook is a no-op:
`renderChunk` returns `null` and leaves the accumulator alone for every
chunk, no loader asset is emitted, `writeBundle` performs no file
operation, and exactly one warning is emitted at config-resolution time. -/
theorem renderer_noop_spec (transformArrowFunctions : Bool) (chunkAlias : List String)
    (transform : List Char → List Char) (bytecodeChunks : List String) (code : List Char)
    (chunk : Chunk) (mods : List (String × ModuleInfo)) (removeBundleJS : Bool)
    (compile : List Char → List Nat) (output : List (String × Chunk))
    (pluginNames : List String) :
    renderChunkHook true transformArrowFunctions chunkAlias transform bytecodeChunks
      code chunk = (none, bytecodeChunks) ∧
    generateBundleHook true bytecodeChunks = [] ∧
    writeBundleHook true bytecodeChunks mods removeBundleJS compile output = [] ∧
    ((configResolvedHook pluginNames).1 = true → (configResolvedHook pluginNames).2 = 1) := by
  refine ⟨rfl, by simp [generateBundleHook], by simp [writeBundleHook], ?_⟩
  intro h
  simp only [configResolvedHook] at h ⊢
  rw [h]
  simp

/-- Witness for C8: with the renderer preset plugin present, exactly one
warning is emitted. -/
theorem renderer_noop_spec_witness :
    (configResolvedHook ["vite:electron-renderer-preset-config"]).2 = 1 :=
  (renderer_noop_spec true [] id [] [] 
      { name := "e", fileName := "e.js", code := "", isEntry := false,
        type := ChunkType.chunk, imports := [], dynamicImports := [] }
      [] true (fun _ => []) [] ["vite:electron-renderer-preset-config"]).2.2.2
    (by decide)
